import Mathlib

/-!
Verification of the element/key/diff reconciliation core of the `asteroids`
repository (StardustXR). The repository contains several coexisting
generations of the engine; we shallowly embed each function the claims cite:

* `src/lib.rs` — boxed `GenericElement` engine with `StardustClient`
  (`DeltaSet`-based children diffing);
* `src/scenegraph.rs` + `src/mapped.rs` — boxed `GenericElement` engine with
  `apply_element_keys`, `ElementWrapper::diff_and_apply` and `MappedElement`;
* `src/element.rs` + `src/dynamic_element.rs` + `src/inner.rs` +
  `src/resource.rs` + `src/client.rs` — the static ("zero-cost") engine
  whose children descriptors are `()`, `(A, B)`, `Vec<E>`, `Option<E>`;
* `src/tree.rs` — the bump-arena engine (`FlatElement`, `FlatmapElement`).

Hashing model: `std::hash::DefaultHasher` is modelled symbolically and
collision-free: the "output" of a hasher is the trace of data it absorbed, so
two hash computations are equal exactly when they absorbed the same data.
`Key` terms record those traces. Hash-set iteration order (FxHashSet) is
unspecified in the source; the embedding fixes the iteration order of the
"common children" phase to declaration order of the new children, and the
properties proved do not depend on the order within a phase.
-/

namespace Asteroids

/-- Rust `TypeId`s of the element/children types that occur in the static
engine: a custom element type `E` is `base n`; `()`, `(A, B)`, `Vec<E>`,
`Option<E>` and `ElementWrapper<State, E, C>` are built structurally. -/
inductive TyShape : Type where
  | base (n : Nat)
  | unit
  | prod (a b : TyShape)
  | vecOf (e : TyShape)
  | optOf (e : TyShape)
  | wrapper (e c : TyShape)
deriving DecidableEq, Repr

/-- A 64-bit key / hasher output, modelled as the trace of absorbed data
(collision-free idealization of `DefaultHasher`):
* `lit n` — a raw `u64`/`usize` value (e.g. the literal root parent key `0`);
* `triple parent mid t` — finish after absorbing `(parent, mid, TypeId)`;
  both `generate_positional_inner_key` (mid = the raw position) and
  `generate_keyed_inner_key` (mid = the already-hashed stable id) produce
  this absorption pattern (src/element.rs:20-34, src/tree.rs:368-377);
* `ofHint h` — finish after absorbing only the hint, as in
  `Element::identify` (src/scenegraph.rs:71-77);
* `pathNil` / `pathCons` — finish over a path of `(usize, TypeId, name)`
  segments as hashed by `apply_element_keys` (src/scenegraph.rs:321-349);
  the segment index is itself a key value (`k.0 as usize`) or a raw order. -/
inductive Key : Type where
  | lit (n : Nat)
  | triple (parent mid : Key) (t : TyShape)
  | ofHint (hint : Nat)
  | pathNil
  | pathCons (idx : Key) (t : TyShape) (name : String) (rest : Key)
deriving DecidableEq, Repr

/-- `generate_positional_inner_key::<T>(parent_key, position)`
(src/element.rs:28-34): hash of parent key, position, `TypeId::of::<T>()`. -/
def generate_positional_inner_key (t : TyShape) (parentKey : Key) (position : Nat) : Key :=
  .triple parentKey (.lit position) t

/-- `generate_keyed_inner_key::<T>(parent_key, stable_id)`
(src/element.rs:20-26): hash of parent key, the 64-bit stable id (itself the
hash of the user hint), `TypeId::of::<T>()`. -/
def generate_keyed_inner_key (t : TyShape) (parentKey : Key) (stableId : Key) : Key :=
  .triple parentKey stableId t

/-- Observable operations performed against the native-resource map and the
leaf contract: `createAttempt k p` is a call of `E::create_inner` for the
node keyed `k` with parent scene-node `p`; `update k a b` is a call of the
leaf update/diff with new params `a` and old params `b`; `destroy k` is
`inner_map.remove(k)`; `frame k` is a per-tick callback of node `k`. -/
inductive Op : Type where
  | createAttempt (key parent : Key)
  | update (key : Key) (newParams oldParams : Nat)
  | destroy (key : Key)
  | frame (key : Key)
deriving DecidableEq, Repr

def Op.isCreate : Op → Bool
  | .createAttempt _ _ => true
  | _ => false

def Op.isDestroy : Op → Bool
  | .destroy _ => true
  | _ => false

def Op.isUpdate : Op → Bool
  | .update _ _ _ => true
  | _ => false

/-! ## Resource Registry (src/resource.rs:8-17 and src/scenegraph.rs:15-26)

`ResourceRegistry(FxHashMap<TypeId, Box<dyn Any>>)`. `get` looks the
`TypeId` of the resource type up, lazily default-constructs the entry on
first access (`entry(..).or_insert_with(|| Box::new(default()))`) and
returns a mutable reference to the stored value (`downcast_mut().unwrap()`;
the downcast cannot fail because the entry at that `TypeId` was stored with
exactly that type). Resource values are modelled as `Nat`; the mutable
reference is modelled by `regGet` (read or lazily create) together with
`regSet` (write through the reference). -/

abbrev ResourceRegistry := List (Nat × Nat)

def regFind (rtag : Nat) : ResourceRegistry → Option Nat
  | [] => none
  | (t, v) :: r => if t = rtag then some v else regFind rtag r

/-- `ResourceRegistry::get::<..>` — returns the current value of the singleton
entry for the resource type tag `rtag`, inserting `dflt` first if absent. -/
def regGet (rtag dflt : Nat) (r : ResourceRegistry) : Nat × ResourceRegistry :=
  match regFind rtag r with
  | some v => (v, r)
  | none => (dflt, (rtag, dflt) :: r)

/-- Writing through the mutable reference `ResourceRegistry::get` returned:
replaces the value of the (first) entry for `rtag`. -/
def regSet (rtag v : Nat) : ResourceRegistry → ResourceRegistry
  | [] => []
  | (t, w) :: r => if t = rtag then (t, v) :: r else (t, w) :: regSet rtag v r

/-- One `create`/`update` call of one instance of an element type: it
receives `&mut E::Resource` via `resources.get::<..>()` and may mutate it;
`f` is the mutation the call performs. -/
def regCall (rtag dflt : Nat) (f : Nat → Nat) (r : ResourceRegistry) : ResourceRegistry :=
  let (v, r₁) := regGet rtag dflt r
  regSet rtag (f v) r₁

/-- A sequence of `create`/`update` calls of many instances of the same
element type, each going through `ResourceRegistry::get`. -/
def regCalls (rtag dflt : Nat) (fs : List (Nat → Nat)) (r : ResourceRegistry) : ResourceRegistry :=
  fs.foldl (fun r f => regCall rtag dflt f r) r

def regCount (rtag : Nat) (r : ResourceRegistry) : Nat :=
  r.countP (fun e => e.1 = rtag)

lemma regFind_regSet (rtag v : Nat) (r : ResourceRegistry) :
    regFind rtag (regSet rtag v r) = (regFind rtag r).map (fun _ => v) := by
  induction r with
  | nil => simp [regFind, regSet]
  | cons e r ih =>
    obtain ⟨t, w⟩ := e
    by_cases h : t = rtag <;> simp [regFind, regSet, h, ih]

lemma regCount_regSet (rtag v : Nat) (r : ResourceRegistry) :
    regCount rtag (regSet rtag v r) = regCount rtag r := by
  induction r with
  | nil => simp [regCount, regSet]
  | cons e r ih =>
    obtain ⟨t, w⟩ := e
    by_cases h : t = rtag
    · simp [regCount, regSet, h, List.countP_cons]
    · simp only [regCount, regSet, if_neg h, List.countP_cons] at ih ⊢
      simp [h, ih]

lemma regCount_regGet (rtag dflt : Nat) (r : ResourceRegistry) :
    regCount rtag (regGet rtag dflt r).2 =
      (if regFind rtag r = none then regCount rtag r + 1 else regCount rtag r) := by
  unfold regGet
  cases h : regFind rtag r <;> simp [h, regCount, List.countP_cons]

lemma regFind_none_count (rtag : Nat) (r : ResourceRegistry) (h : regFind rtag r = none) :
    regCount rtag r = 0 := by
  induction r with
  | nil => simp [regCount]
  | cons e r ih =>
    obtain ⟨t, w⟩ := e
    by_cases ht : t = rtag
    · simp [regFind, ht] at h
    · simp only [regFind, if_neg ht] at h
      simp only [regCount, List.countP_cons] at ih ⊢
      simp [ht, ih h]

lemma regCall_invariant (rtag dflt : Nat) (f : Nat → Nat) (r : ResourceRegistry) (v : Nat)
    (h : regFind rtag r = some v) (hc : regCount rtag r = 1) :
    regFind rtag (regCall rtag dflt f r) = some (f v) ∧
      regCount rtag (regCall rtag dflt f r) = 1 := by
  unfold regCall regGet
  simp [h]
  constructor
  · rw [regFind_regSet, h]
    rfl
  · rw [regCount_regSet]
    exact hc

lemma regCalls_invariant (rtag dflt : Nat) (fs : List (Nat → Nat)) (r : ResourceRegistry) (v : Nat)
    (h : regFind rtag r = some v) (hc : regCount rtag r = 1) :
    regFind rtag (regCalls rtag dflt fs r) = some (fs.foldl (fun a f => f a) v) ∧
      regCount rtag (regCalls rtag dflt fs r) = 1 := by
  induction fs generalizing r v with
  | nil => simpa [regCalls] using ⟨h, hc⟩
  | cons f fs ih =>
    obtain ⟨h₁, h₂⟩ := regCall_invariant rtag dflt f r v h hc
    have := ih (regCall rtag dflt f r) (f v) h₁ h₂
    simpa [regCalls] using this

/-! ## Native-resource map, `ElementInnerMap` (src/inner.rs:9-34, src/lib.rs:245-267)

`ElementInnerMap(FxHashMap<ElementInnerKey, Box<dyn Any + Send + Sync>>)`.
An entry stores a value of the concrete type `E::Inner` behind `dyn Any`;
we model entries as `(innerTag, value)` where `innerTag` identifies that
concrete type. `get`/`get_mut` are `self.0.get(&key)?.downcast_ref()` /
`downcast_mut()`: `None` on an absent key and `None` on a downcast to a
different type. `insert` is `HashMap::insert` (replaces an existing entry);
`remove` is `HashMap::remove` (no-op when absent, the `Option` result is
dropped). Keys of this map are raw `u64`s. -/

abbrev DMap := List (Nat × (Nat × Nat))

def dFind (k : Nat) : DMap → Option (Nat × Nat)
  | [] => none
  | (k₀, e) :: m => if k₀ = k then some e else dFind k m

def dErase (k : Nat) (m : DMap) : DMap :=
  m.filter (fun e => e.1 ≠ k)

/-- `ElementInnerMap::insert::<State, E>(key, inner)` — `HashMap::insert`,
replacing any existing entry at `key`. -/
def dInsert (k innerTag v : Nat) (m : DMap) : DMap :=
  (k, (innerTag, v)) :: dErase k m

/-- `ElementInnerMap::get::<State, E>` (and `get_mut`, identical shape):
`self.0.get(&key)?.downcast_ref()` — `none` on a missing key, `none` when
the stored inner value is not an `E::Inner`. -/
def dGet (innerTag k : Nat) (m : DMap) : Option Nat :=
  (dFind k m).bind (fun e => if e.1 = innerTag then some e.2 else none)

/-- `ElementInnerMap::remove(key)` — `HashMap::remove`, result dropped. -/
def dRemove (k : Nat) (m : DMap) : DMap :=
  dErase k m

lemma dFind_dInsert_self (k t v : Nat) (m : DMap) :
    dFind k (dInsert k t v m) = some (t, v) := by
  simp [dInsert, dFind]

lemma dErase_absent (k : Nat) (m : DMap) (h : dFind k m = none) :
    dErase k m = m := by
  induction m with
  | nil => rfl
  | cons e m ih =>
    obtain ⟨k₀, e₀⟩ := e
    by_cases hk : k₀ = k
    · simp [dFind, hk] at h
    · simp [dFind, hk] at h
      simp [dErase, hk] at ih ⊢
      exact ih h

/-! ## The static engine (src/element.rs, src/dynamic_element.rs, src/client.rs)

`ElementWrapper<State, E, C>` holds `custom_element: Option<E>`, a children
descriptor `C` built from `()`, `(A, B)`, `Vec<E>`, `Option<E>` and nested
wrappers, and `stable_id: Option<u64>` (set by `Identifiable::identify`,
stored but never consulted by create/frame/diff/destroy in this engine).
Keys are passed down: the wrapper's own key is given by the caller, the
children descriptor re-derives keys with `generate_positional_inner_key`.
The inner map of this engine is keyed by `Key` and stores which element
type's `Inner` occupies the entry. -/

inductive StaticEl : Type where
  | wrapper (etag : Nat) (hasElem : Bool) (params : Nat) (stableId : Option Key)
      (children : StaticEl)
  | cempty
  | cpair (a b : StaticEl)
  | cvec (eShape : TyShape) (xs : List StaticEl)
  | copt (eShape : TyShape) (x : Option StaticEl)

/-- The Rust `TypeId` of the value itself — what
`(old as &dyn Any).downcast_ref::<Self>()` compares. -/
def StaticEl.shape : StaticEl → TyShape
  | .wrapper etag _ _ _ c => .wrapper (.base etag) c.shape
  | .cempty => .unit
  | .cpair a b => .prod a.shape b.shape
  | .cvec eS _ => .vecOf eS
  | .copt eS _ => .optOf eS

abbrev InnerMap := List (Key × Nat)

def mLookup (k : Key) : InnerMap → Option Nat
  | [] => none
  | (k₀, t) :: m => if k₀ = k then some t else mLookup k m

def mInsert (k : Key) (t : Nat) (m : InnerMap) : InnerMap :=
  (k, t) :: m.filter (fun e => e.1 ≠ k)

def mRemove (k : Key) (m : InnerMap) : InnerMap :=
  m.filter (fun e => e.1 ≠ k)

mutual

/-- `ElementDiffer::create_inner_recursive` for `ElementWrapper` (src/element.rs:445-493)
and the `()`, `(A, B)`, `Vec<E>`, `Option<E>` children impls
(src/element.rs:103-112, 140-168, 220-240, 306-326). `ok k` tells whether
`E::create_inner` returns `Ok` for the node keyed `k` (environment oracle);
the attempt happens whenever `custom_element` is `Some`, the entry is
inserted only on `Ok`, and children are created regardless, parented under
the node's own spatial if its inner exists and under `parent_space`
otherwise. -/
def StaticEl.create (ok : Key → Bool) (sp k : Key) :
    StaticEl → InnerMap → List Op × InnerMap
  | .wrapper etag hasElem _p _sid c, m =>
    let r₁ : List Op × InnerMap :=
      if hasElem then ([.createAttempt k sp], if ok k then mInsert k etag m else m)
      else ([], m)
    let childSp := if hasElem ∧ mLookup k r₁.2 = some etag then k else sp
    let r₂ := StaticEl.create ok childSp k c r₁.2
    (r₁.1 ++ r₂.1, r₂.2)
  | .cempty, m => ([], m)
  | .cpair a b, m =>
    let r₁ := StaticEl.create ok sp (generate_positional_inner_key a.shape k 0) a m
    let r₂ := StaticEl.create ok sp (generate_positional_inner_key b.shape k 1) b r₁.2
    (r₁.1 ++ r₂.1, r₂.2)
  | .cvec eS xs, m => StaticEl.createVec ok sp k eS 0 xs m
  | .copt _ none, m => ([], m)
  | .copt _ (some e), m => StaticEl.create ok sp k e m

/-- The loop of `Vec<E> as ElementDiffer::create_inner_recursive`
(src/element.rs:229-239): element `i` gets key
`generate_positional_inner_key::<E>(inner_key, i)`. -/
def StaticEl.createVec (ok : Key → Bool) (sp k : Key) (eS : TyShape) (i : Nat) :
    List StaticEl → InnerMap → List Op × InnerMap
  | [], m => ([], m)
  | x :: xs, m =>
    let r₁ := StaticEl.create ok sp (generate_positional_inner_key eS k i) x m
    let r₂ := StaticEl.createVec ok sp k eS (i + 1) xs r₁.2
    (r₁.1 ++ r₂.1, r₂.2)

end

mutual

/-- `destroy_inner_recursive` (src/element.rs:582-590 and the children
impls): children are destroyed first, then the node's own entry is removed
(unconditionally; removing an absent key is a no-op). The keys a destroyed
subtree removes are the ones stored in its `OnceLock`s by the tick that
created or diffed it, i.e. the same positional derivation. -/
def StaticEl.destroy (k : Key) : StaticEl → InnerMap → List Op × InnerMap
  | .wrapper _ _ _ _ c, m =>
    let r₁ := StaticEl.destroy k c m
    (r₁.1 ++ [.destroy k], mRemove k r₁.2)
  | .cempty, m => ([], m)
  | .cpair a b, m =>
    let r₁ := StaticEl.destroy (generate_positional_inner_key a.shape k 0) a m
    let r₂ := StaticEl.destroy (generate_positional_inner_key b.shape k 1) b r₁.2
    (r₁.1 ++ r₂.1, r₂.2)
  | .cvec eS xs, m => StaticEl.destroyVec k eS 0 xs m
  | .copt _ none, m => ([], m)
  | .copt _ (some e), m => StaticEl.destroy k e m

def StaticEl.destroyVec (k : Key) (eS : TyShape) (i : Nat) :
    List StaticEl → InnerMap → List Op × InnerMap
  | [], m => ([], m)
  | x :: xs, m =>
    let r₁ := StaticEl.destroy (generate_positional_inner_key eS k i) x m
    let r₂ := StaticEl.destroyVec k eS (i + 1) xs r₁.2
    (r₁.1 ++ r₂.1, r₂.2)

end

mutual

/-- `diff_same_type` for `ElementWrapper` (src/element.rs:516-580) and the
children impls (src/element.rs:121-132, 179-210, 252-296, 338-380). The
update (`CustomElement::diff`) runs only when the inner is present with
the right type; `(Some, None)` creates the whole node, `(None, Some)`
destroys it; `Vec` diffs positionally over the common prefix, destroys
extra old elements and creates extra new ones; `Option` uses the parent's
key unchanged. Catch-all children cases differ in constructor and are
unreachable under Rust's typing (both sides share one static type `C`). -/
def StaticEl.diffSame (ok : Key → Bool) (sp k : Key) :
    StaticEl → StaticEl → InnerMap → List Op × InnerMap
  | .wrapper etag hasE p sid c, .wrapper etag' hasE' p' sid' c', m =>
    match hasE, hasE' with
    | true, true =>
      let r₁ : List Op × InnerMap :=
        if mLookup k m = some etag then ([.update k p p'], m) else ([], m)
      let childSp := if mLookup k r₁.2 = some etag then k else sp
      let r₂ := StaticEl.diffSame ok childSp k c c' r₁.2
      (r₁.1 ++ r₂.1, r₂.2)
    | true, false => StaticEl.create ok sp k (.wrapper etag true p sid c) m
    | false, true => StaticEl.destroy k (.wrapper etag' false p' sid' c') m
    | false, false => StaticEl.diffSame ok sp k c c' m
  | .cpair a b, .cpair a' b', m =>
    let r₁ := StaticEl.diffSame ok sp (generate_positional_inner_key a.shape k 0) a a' m
    let r₂ := StaticEl.diffSame ok sp (generate_positional_inner_key b.shape k 1) b b' r₁.2
    (r₁.1 ++ r₂.1, r₂.2)
  | .cvec eS xs, .cvec _ ys, m => StaticEl.diffVec ok sp k eS 0 xs ys m
  | .copt _ x, .copt _ y, m =>
    match x, y with
    | some n, some o => StaticEl.diffSame ok sp k n o m
    | some n, none => StaticEl.create ok sp k n m
    | none, some o => StaticEl.destroy k o m
    | none, none => ([], m)
  | _, _, m => ([], m)

/-- `Vec<E> as ElementDiffer::diff_same_type` (src/element.rs:252-296):
diff the common prefix positionally, then destroy the extra old elements,
then create the extra new ones (at most one of the two phases is nonempty). -/
def StaticEl.diffVec (ok : Key → Bool) (sp k : Key) (eS : TyShape) (i : Nat) :
    List StaticEl → List StaticEl → InnerMap → List Op × InnerMap
  | x :: xs, y :: ys, m =>
    let r₁ := StaticEl.diffSame ok sp (generate_positional_inner_key eS k i) x y m
    let r₂ := StaticEl.diffVec ok sp k eS (i + 1) xs ys r₁.2
    (r₁.1 ++ r₂.1, r₂.2)
  | [], ys, m => StaticEl.destroyVec k eS i ys m
  | xs, [], m => StaticEl.createVec ok sp k eS i xs m

end

/-- `DynamicDiffer::diff_dynamic`, blanket implementation
(src/dynamic_element.rs:81-116): `(old as &dyn Any).downcast_ref::<Self>()`
is checked with `if let` — it succeeds exactly when old has the same
concrete Rust type (equal shape), in which case the fast path
`diff_same_type` runs; otherwise the old subtree is destroyed and the new
one is created. There is no unwrap or assertion on this path. -/
def StaticEl.diffDynamic (ok : Key → Bool) (sp k : Key) (new old : StaticEl)
    (m : InnerMap) : List Op × InnerMap :=
  if new.shape = old.shape then
    StaticEl.diffSame ok sp k new old m
  else
    let r₁ := StaticEl.destroy k old m
    let r₂ := StaticEl.create ok sp k new r₁.2
    (r₁.1 ++ r₂.1, r₂.2)

def Op.opKey : Op → Key
  | .createAttempt k _ => k
  | .update k _ _ => k
  | .destroy k => k
  | .frame k => k

mutual

/-- Specification-side order: the keys of the `ElementWrapper` nodes of a
subtree in post-order, each node after all of its descendants. -/
def StaticEl.postKeys (k : Key) : StaticEl → List Key
  | .wrapper _ _ _ _ c => StaticEl.postKeys k c ++ [k]
  | .cempty => []
  | .cpair a b =>
    StaticEl.postKeys (generate_positional_inner_key a.shape k 0) a ++
      StaticEl.postKeys (generate_positional_inner_key b.shape k 1) b
  | .cvec eS xs => StaticEl.postKeysVec k eS 0 xs
  | .copt _ none => []
  | .copt _ (some e) => StaticEl.postKeys k e

def StaticEl.postKeysVec (k : Key) (eS : TyShape) (i : Nat) : List StaticEl → List Key
  | [] => []
  | x :: xs =>
    StaticEl.postKeys (generate_positional_inner_key eS k i) x ++
      StaticEl.postKeysVec k eS (i + 1) xs

end

mutual

/-- Specification-side order: the keys of the `ElementWrapper` nodes whose
`custom_element` is present, in pre-order, each node before its
descendants. -/
def StaticEl.preElemKeys (k : Key) : StaticEl → List Key
  | .wrapper _ hasE _ _ c => (if hasE then [k] else []) ++ StaticEl.preElemKeys k c
  | .cempty => []
  | .cpair a b =>
    StaticEl.preElemKeys (generate_positional_inner_key a.shape k 0) a ++
      StaticEl.preElemKeys (generate_positional_inner_key b.shape k 1) b
  | .cvec eS xs => StaticEl.preElemKeysVec k eS 0 xs
  | .copt _ none => []
  | .copt _ (some e) => StaticEl.preElemKeys k e

def StaticEl.preElemKeysVec (k : Key) (eS : TyShape) (i : Nat) : List StaticEl → List Key
  | [] => []
  | x :: xs =>
    StaticEl.preElemKeys (generate_positional_inner_key eS k i) x ++
      StaticEl.preElemKeysVec k eS (i + 1) xs

end

mutual

/-- Specification-side: the live nodes of a subtree under key `k` — the
`ElementWrapper` nodes whose `custom_element` is present and whose inner
currently exists in the map with the right type — as `(key, params)` pairs
in pre-order. -/
def StaticEl.liveNodes (k : Key) (m : InnerMap) : StaticEl → List (Key × Nat)
  | .wrapper etag hasE p _ c =>
    (if hasE ∧ mLookup k m = some etag then [(k, p)] else []) ++
      StaticEl.liveNodes k m c
  | .cempty => []
  | .cpair a b =>
    StaticEl.liveNodes (generate_positional_inner_key a.shape k 0) m a ++
      StaticEl.liveNodes (generate_positional_inner_key b.shape k 1) m b
  | .cvec eS xs => StaticEl.liveNodesVec k m eS 0 xs
  | .copt _ none => []
  | .copt _ (some e) => StaticEl.liveNodes k m e

def StaticEl.liveNodesVec (k : Key) (m : InnerMap) (eS : TyShape) (i : Nat) :
    List StaticEl → List (Key × Nat)
  | [] => []
  | x :: xs =>
    StaticEl.liveNodes (generate_positional_inner_key eS k i) m x ++
      StaticEl.liveNodesVec k m eS (i + 1) xs

end

lemma Op.isCreate_not_isUpdate (op : Op) (h : op.isCreate = true) :
    op.isUpdate = false := by
  cases op <;> simp_all [Op.isCreate, Op.isUpdate]

mutual

theorem destroy_ops : ∀ (k : Key) (e : StaticEl) (m : InnerMap),
    (StaticEl.destroy k e m).1 = (StaticEl.postKeys k e).map Op.destroy
  | k, .wrapper etag hasE p sid c, m => by
    have ih := destroy_ops k c m
    simp [StaticEl.destroy, StaticEl.postKeys, ih]
  | k, .cempty, m => by simp [StaticEl.destroy, StaticEl.postKeys]
  | k, .cpair a b, m => by
    have iha := destroy_ops (generate_positional_inner_key a.shape k 0) a m
    have ihb := destroy_ops (generate_positional_inner_key b.shape k 1) b
      (StaticEl.destroy (generate_positional_inner_key a.shape k 0) a m).2
    simp [StaticEl.destroy, StaticEl.postKeys, iha, ihb]
  | k, .cvec eS xs, m => by
    have ih := destroyVec_ops k eS 0 xs m
    simp [StaticEl.destroy, StaticEl.postKeys, ih]
  | k, .copt eS none, m => by simp [StaticEl.destroy, StaticEl.postKeys]
  | k, .copt eS (some e), m => by
    have ih := destroy_ops k e m
    simp [StaticEl.destroy, StaticEl.postKeys, ih]

theorem destroyVec_ops : ∀ (k : Key) (eS : TyShape) (i : Nat) (xs : List StaticEl)
    (m : InnerMap),
    (StaticEl.destroyVec k eS i xs m).1 = (StaticEl.postKeysVec k eS i xs).map Op.destroy
  | k, eS, i, [], m => by simp [StaticEl.destroyVec, StaticEl.postKeysVec]
  | k, eS, i, x :: xs, m => by
    have ih₁ := destroy_ops (generate_positional_inner_key eS k i) x m
    have ih₂ := destroyVec_ops k eS (i + 1) xs
      (StaticEl.destroy (generate_positional_inner_key eS k i) x m).2
    simp [StaticEl.destroyVec, StaticEl.postKeysVec, ih₁, ih₂]

end

mutual

theorem create_spec : ∀ (ok : Key → Bool) (sp k : Key) (e : StaticEl) (m : InnerMap),
    ((StaticEl.create ok sp k e m).1.map Op.opKey = StaticEl.preElemKeys k e) ∧
      (∀ op ∈ (StaticEl.create ok sp k e m).1, op.isCreate = true)
  | ok, sp, k, .wrapper etag hasE p sid c, m => by
    cases hasE with
    | false =>
      obtain ⟨ih₁, ih₂⟩ := create_spec ok sp k c m
      refine ⟨?_, ?_⟩
      · simp [StaticEl.create, StaticEl.preElemKeys, ih₁]
      · intro op hop
        simp [StaticEl.create] at hop
        exact ih₂ op hop
    | true =>
      cases hok : ok k with
      | true =>
        by_cases hc : mLookup k (mInsert k etag m) = some etag
        · obtain ⟨ih₁, ih₂⟩ := create_spec ok k k c (mInsert k etag m)
          refine ⟨?_, ?_⟩
          · simp [StaticEl.create, StaticEl.preElemKeys, hok, hc, ih₁, Op.opKey]
          · intro op hop
            simp [StaticEl.create, hok, hc] at hop
            rcases hop with rfl | hop
            · rfl
            · exact ih₂ op hop
        · obtain ⟨ih₁, ih₂⟩ := create_spec ok sp k c (mInsert k etag m)
          refine ⟨?_, ?_⟩
          · simp [StaticEl.create, StaticEl.preElemKeys, hok, hc, ih₁, Op.opKey]
          · intro op hop
            simp [StaticEl.create, hok, hc] at hop
            rcases hop with rfl | hop
            · rfl
            · exact ih₂ op hop
      | false =>
        by_cases hc : mLookup k m = some etag
        · obtain ⟨ih₁, ih₂⟩ := create_spec ok k k c m
          refine ⟨?_, ?_⟩
          · simp [StaticEl.create, StaticEl.preElemKeys, hok, hc, ih₁, Op.opKey]
          · intro op hop
            simp [StaticEl.create, hok, hc] at hop
            rcases hop with rfl | hop
            · rfl
            · exact ih₂ op hop
        · obtain ⟨ih₁, ih₂⟩ := create_spec ok sp k c m
          refine ⟨?_, ?_⟩
          · simp [StaticEl.create, StaticEl.preElemKeys, hok, hc, ih₁, Op.opKey]
          · intro op hop
            simp [StaticEl.create, hok, hc] at hop
            rcases hop with rfl | hop
            · rfl
            · exact ih₂ op hop
  | ok, sp, k, .cempty, m => by
    simp [StaticEl.create, StaticEl.preElemKeys]
  | ok, sp, k, .cpair a b, m => by
    obtain ⟨iha₁, iha₂⟩ :=
      create_spec ok sp (generate_positional_inner_key a.shape k 0) a m
    obtain ⟨ihb₁, ihb₂⟩ :=
      create_spec ok sp (generate_positional_inner_key b.shape k 1) b
        (StaticEl.create ok sp (generate_positional_inner_key a.shape k 0) a m).2
    refine ⟨?_, ?_⟩
    · simp [StaticEl.create, StaticEl.preElemKeys, iha₁, ihb₁]
    · intro op hop
      simp [StaticEl.create] at hop
      rcases hop with hop | hop
      · exact iha₂ op hop
      · exact ihb₂ op hop
  | ok, sp, k, .cvec eS xs, m => by
    obtain ⟨ih₁, ih₂⟩ := createVec_spec ok sp k eS 0 xs m
    refine ⟨?_, ?_⟩
    · simp [StaticEl.create, StaticEl.preElemKeys, ih₁]
    · intro op hop
      simp [StaticEl.create] at hop
      exact ih₂ op hop
  | ok, sp, k, .copt eS none, m => by
    simp [StaticEl.create, StaticEl.preElemKeys]
  | ok, sp, k, .copt eS (some e), m => by
    obtain ⟨ih₁, ih₂⟩ := create_spec ok sp k e m
    refine ⟨?_, ?_⟩
    · simp [StaticEl.create, StaticEl.preElemKeys, ih₁]
    · intro op hop
      simp [StaticEl.create] at hop
      exact ih₂ op hop

theorem createVec_spec : ∀ (ok : Key → Bool) (sp k : Key) (eS : TyShape) (i : Nat)
    (xs : List StaticEl) (m : InnerMap),
    ((StaticEl.createVec ok sp k eS i xs m).1.map Op.opKey =
        StaticEl.preElemKeysVec k eS i xs) ∧
      (∀ op ∈ (StaticEl.createVec ok sp k eS i xs m).1, op.isCreate = true)
  | ok, sp, k, eS, i, [], m => by
    simp [StaticEl.createVec, StaticEl.preElemKeysVec]
  | ok, sp, k, eS, i, x :: xs, m => by
    obtain ⟨ih₁, ih₂⟩ := create_spec ok sp (generate_positional_inner_key eS k i) x m
    obtain ⟨ihs₁, ihs₂⟩ := createVec_spec ok sp k eS (i + 1) xs
      (StaticEl.create ok sp (generate_positional_inner_key eS k i) x m).2
    refine ⟨?_, ?_⟩
    · simp [StaticEl.createVec, StaticEl.preElemKeysVec, ih₁, ihs₁]
    · intro op hop
      simp [StaticEl.createVec] at hop
      rcases hop with hop | hop
      · exact ih₂ op hop
      · exact ihs₂ op hop

end

mutual

theorem diffSame_self : ∀ (ok : Key → Bool) (sp k : Key) (t : StaticEl) (m : InnerMap),
    StaticEl.diffSame ok sp k t t m =
      ((StaticEl.liveNodes k m t).map (fun x => Op.update x.1 x.2 x.2), m)
  | ok, sp, k, .wrapper etag hasE p sid c, m => by
    cases hasE with
    | false =>
      have ih := diffSame_self ok sp k c m
      simp [StaticEl.diffSame, StaticEl.liveNodes, ih]
    | true =>
      by_cases hl : mLookup k m = some etag
      · have ih := diffSame_self ok k k c m
        simp [StaticEl.diffSame, StaticEl.liveNodes, hl, ih]
      · have ih := diffSame_self ok sp k c m
        simp [StaticEl.diffSame, StaticEl.liveNodes, hl, ih]
  | ok, sp, k, .cempty, m => by
    simp [StaticEl.diffSame, StaticEl.liveNodes]
  | ok, sp, k, .cpair a b, m => by
    have iha := diffSame_self ok sp (generate_positional_inner_key a.shape k 0) a m
    have ihb := diffSame_self ok sp (generate_positional_inner_key b.shape k 1) b m
    simp [StaticEl.diffSame, StaticEl.liveNodes, iha, ihb]
  | ok, sp, k, .cvec eS xs, m => by
    have ih := diffVec_self ok sp k eS 0 xs m
    simp [StaticEl.diffSame, StaticEl.liveNodes, ih]
  | ok, sp, k, .copt eS none, m => by
    simp [StaticEl.diffSame, StaticEl.liveNodes]
  | ok, sp, k, .copt eS (some e), m => by
    have ih := diffSame_self ok sp k e m
    simp [StaticEl.diffSame, StaticEl.liveNodes, ih]

theorem diffVec_self : ∀ (ok : Key → Bool) (sp k : Key) (eS : TyShape) (i : Nat)
    (xs : List StaticEl) (m : InnerMap),
    StaticEl.diffVec ok sp k eS i xs xs m =
      ((StaticEl.liveNodesVec k m eS i xs).map (fun x => Op.update x.1 x.2 x.2), m)
  | ok, sp, k, eS, i, [], m => by
    simp [StaticEl.diffVec, StaticEl.destroyVec, StaticEl.liveNodesVec]
  | ok, sp, k, eS, i, x :: xs, m => by
    have ih₁ := diffSame_self ok sp (generate_positional_inner_key eS k i) x m
    have ih₂ := diffVec_self ok sp k eS (i + 1) xs m
    simp [StaticEl.diffVec, StaticEl.liveNodesVec, ih₁, ih₂]

end

/-- C9: diffing a tree of the static engine against an exact structural and
parameter-for-parameter copy of itself (the same reified value) performs
zero create calls and zero destroy calls, exactly one update call per live
node (each node whose `custom_element` is present and whose inner currently
exists in the native-resource map with the right type, in pre-order), and
leaves the native-resource map unchanged. -/
theorem c9_diff_against_copy_updates_only (ok : Key → Bool) (sp k : Key) (t : StaticEl)
    (m : InnerMap) :
    StaticEl.diffSame ok sp k t t m =
      ((StaticEl.liveNodes k m t).map (fun x => Op.update x.1 x.2 x.2), m) :=
  diffSame_self ok sp k t m

/-- C5: when the declared types of a matched pair differ (the shapes of the
dynamic elements are unequal), `diff_dynamic` performs exactly one destroy
of the old subtree in post-order (every node after its descendants),
followed by creates of the new subtree in pre-order (every node before its
descendants), and no update call occurs anywhere in the emitted trace. -/
theorem c5_type_swap_destroy_then_create (ok : Key → Bool) (sp k : Key)
    (new old : StaticEl) (m : InnerMap) (h : new.shape ≠ old.shape) :
    ∃ dOps cOps,
      (StaticEl.diffDynamic ok sp k new old m).1 = dOps ++ cOps ∧
      dOps = (StaticEl.postKeys k old).map Op.destroy ∧
      cOps.map Op.opKey = StaticEl.preElemKeys k new ∧
      (∀ op ∈ cOps, op.isCreate = true) ∧
      (∀ op ∈ dOps ++ cOps, op.isUpdate = false) := by
  refine ⟨(StaticEl.destroy k old m).1,
    (StaticEl.create ok sp k new (StaticEl.destroy k old m).2).1, ?_, ?_, ?_, ?_, ?_⟩
  · simp [StaticEl.diffDynamic, h]
  · exact destroy_ops k old m
  · exact (create_spec ok sp k new (StaticEl.destroy k old m).2).1
  · exact (create_spec ok sp k new (StaticEl.destroy k old m).2).2
  · intro op hop
    rcases List.mem_append.mp hop with hop | hop
    · rw [destroy_ops k old m] at hop
      obtain ⟨k', _, rfl⟩ := List.mem_map.mp hop
      rfl
    · exact Op.isCreate_not_isUpdate op
        ((create_spec ok sp k new (StaticEl.destroy k old m).2).2 op hop)

theorem c5_type_swap_destroy_then_create_witness :
    ((StaticEl.wrapper 1 true 10 none .cempty).shape ≠
        (StaticEl.wrapper 2 true 20 none
          (.cpair .cempty (.wrapper 3 true 30 none .cempty))).shape) ∧
      ∃ dOps cOps,
        (StaticEl.diffDynamic (fun _ => true) (.lit 9) (.lit 0)
            (StaticEl.wrapper 1 true 10 none .cempty)
            (StaticEl.wrapper 2 true 20 none
              (.cpair .cempty (.wrapper 3 true 30 none .cempty))) []).1 = dOps ++ cOps ∧
        dOps = (StaticEl.postKeys (.lit 0)
            (StaticEl.wrapper 2 true 20 none
              (.cpair .cempty (.wrapper 3 true 30 none .cempty)))).map Op.destroy ∧
        cOps.map Op.opKey =
          StaticEl.preElemKeys (.lit 0) (StaticEl.wrapper 1 true 10 none .cempty) ∧
        (∀ op ∈ cOps, op.isCreate = true) ∧
        (∀ op ∈ dOps ++ cOps, op.isUpdate = false) :=
  ⟨by decide,
    c5_type_swap_destroy_then_create (fun _ => true) (.lit 9) (.lit 0)
      (StaticEl.wrapper 1 true 10 none .cempty)
      (StaticEl.wrapper 2 true 20 none
        (.cpair .cempty (.wrapper 3 true 30 none .cempty))) [] (by decide)⟩

/-- C7 (amended, static engine): when `E::create_inner` fails for a node
(`ok k = false`) and the node's key is fresh in the map, the failure is
non-fatal — the attempt is recorded, the node inserts no entry in the
native-resource map, and the children's creation still runs, from the same
map state and parented under the node's own parent `sp` as the fallback
since the node produced no scene-node of its own. -/
theorem c7_create_failure_nonfatal_static (ok : Key → Bool) (sp k : Key) (etag p : Nat)
    (sid : Option Key) (c : StaticEl) (m : InnerMap) (hok : ok k = false)
    (hfresh : mLookup k m = none) :
    StaticEl.create ok sp k (.wrapper etag true p sid c) m =
      (Op.createAttempt k sp :: (StaticEl.create ok sp k c m).1,
        (StaticEl.create ok sp k c m).2) := by
  simp [StaticEl.create, hok, hfresh]

theorem c7_create_failure_nonfatal_static_witness :
    ((fun k => k ≠ Key.lit 0) (Key.lit 0) = false) ∧
      (mLookup (Key.lit 0) ([] : InnerMap) = none) ∧
      StaticEl.create (fun k => k ≠ Key.lit 0) (.lit 9) (.lit 0)
          (.wrapper 1 true 10 none
            (.cpair .cempty (.wrapper 2 true 20 none .cempty))) [] =
        (Op.createAttempt (.lit 0) (.lit 9) ::
            (StaticEl.create (fun k => k ≠ Key.lit 0) (.lit 9) (.lit 0)
              (.cpair .cempty (.wrapper 2 true 20 none .cempty)) []).1,
          (StaticEl.create (fun k => k ≠ Key.lit 0) (.lit 9) (.lit 0)
            (.cpair .cempty (.wrapper 2 true 20 none .cempty)) []).2) :=
  ⟨by decide, by decide,
    c7_create_failure_nonfatal_static (fun k => k ≠ Key.lit 0) (.lit 9) (.lit 0) 1 10
      none (.cpair .cempty (.wrapper 2 true 20 none .cempty)) [] (by decide) (by decide)⟩

/-- C3 counterexample: three siblings of one element type carrying distinct
explicit identity ids (stable ids recorded on the wrappers; params double as
the ids 1, 2, 3), reordered from `[1, 2, 3]` to `[3, 1, 2]`. The static
engine's `Vec<E>::diff_same_type` pairs children positionally and ignores
the stable ids entirely: the id-3 child's update receives the id-1 child's
old parameters, so nodes are not matched to their old versions by id. -/
theorem c3_counterexample_vec_positional_matching :
    (StaticEl.diffSame (fun _ => true) (.lit 9) (.lit 0)
        (.cvec (.base 1)
          [.wrapper 1 true 3 (some (.ofHint 3)) .cempty,
           .wrapper 1 true 1 (some (.ofHint 1)) .cempty,
           .wrapper 1 true 2 (some (.ofHint 2)) .cempty])
        (.cvec (.base 1)
          [.wrapper 1 true 1 (some (.ofHint 1)) .cempty,
           .wrapper 1 true 2 (some (.ofHint 2)) .cempty,
           .wrapper 1 true 3 (some (.ofHint 3)) .cempty])
        [(generate_positional_inner_key (.base 1) (.lit 0) 0, 1),
         (generate_positional_inner_key (.base 1) (.lit 0) 1, 1),
         (generate_positional_inner_key (.base 1) (.lit 0) 2, 1)]).1 =
      [.update (generate_positional_inner_key (.base 1) (.lit 0) 0) 3 1,
       .update (generate_positional_inner_key (.base 1) (.lit 0) 1) 1 2,
       .update (generate_positional_inner_key (.base 1) (.lit 0) 2) 2 3] := by
  decide

/-! ## The boxed engine (src/scenegraph.rs, src/mapped.rs, src/lib.rs)

`Element<State>(Box<dyn GenericElement<State>>)` with
`ElementWrapper<State, E> { params, path, inner_key, children: Vec<Element> }`.
`Element`'s `Hash`/`PartialEq` instances compare `inner_key` only, so the
`DeltaSet` children diff matches children by key. The concrete Rust type of
a wrapper is determined by `E` alone (children are type-erased), so the
downcast in `diff_and_apply` succeeds exactly when the element type tags
agree. Spatials are identified by the key of the node that owns them. -/

inductive SElem : Type where
  | mk (etag : Nat) (key : Key) (params : Nat) (children : List SElem)

def SElem.etag : SElem → Nat
  | .mk t _ _ _ => t

def SElem.key : SElem → Key
  | .mk _ k _ _ => k

def SElem.params : SElem → Nat
  | .mk _ _ p _ => p

def SElem.children : SElem → List SElem
  | .mk _ _ _ cs => cs

mutual

def SElem.beq : SElem → SElem → Bool
  | .mk t k p cs, .mk t' k' p' cs' =>
    t == t' && k == k' && p == p' && SElem.beqList cs cs'

def SElem.beqList : List SElem → List SElem → Bool
  | [], [] => true
  | c :: cs, c' :: cs' => SElem.beq c c' && SElem.beqList cs cs'
  | _, _ => false

end

mutual

theorem SElem.beq_iff : ∀ a b : SElem, SElem.beq a b = true ↔ a = b
  | .mk t k p cs, .mk t' k' p' cs' => by
    have ih := SElem.beqList_iff cs cs'
    simp [SElem.beq, SElem.mk.injEq, ih, and_assoc]

theorem SElem.beqList_iff : ∀ a b : List SElem, SElem.beqList a b = true ↔ a = b
  | [], [] => by simp [SElem.beqList]
  | [], _ :: _ => by simp [SElem.beqList]
  | _ :: _, [] => by simp [SElem.beqList]
  | c :: cs, c' :: cs' => by
    have ih₁ := SElem.beq_iff c c'
    have ih₂ := SElem.beqList_iff cs cs'
    simp [SElem.beqList, ih₁, ih₂]

end

instance : DecidableEq SElem := fun a b => decidable_of_iff _ (SElem.beq_iff a b)

def keyMem (k : Key) : List Key → Bool
  | [] => false
  | k₀ :: ks => if k₀ = k then true else keyMem k ks

def keysOf (es : List SElem) : List Key :=
  es.map SElem.key

/-- `old_children.get(new_child)` — hash-set lookup via `Element`'s `Eq`
instance, i.e. lookup by key equality (src/scenegraph.rs:84-89, 386, 391). -/
def findByKey (k : Key) : List SElem → Option SElem
  | [] => none
  | e :: es => if e.key = k then some e else findByKey k es

mutual

/-- All keys of a subtree, the node's own key first. -/
def SElem.subKeys : SElem → List Key
  | .mk _ k _ cs => k :: SElem.subKeysList cs

def SElem.subKeysList : List SElem → List Key
  | [] => []
  | c :: cs => c.subKeys ++ SElem.subKeysList cs

end

mutual

/-- `ElementWrapper::destroy_inner_recursive` (src/scenegraph.rs:296-305):
children first, then the node's own map entry. -/
def destroySc : SElem → List Op
  | .mk _ k _ cs => destroyScList cs ++ [Op.destroy k]

def destroyScList : List SElem → List Op
  | [] => []
  | c :: cs => destroySc c ++ destroyScList cs

end

mutual

/-- `ElementWrapper::create_inner_recursive` (src/scenegraph.rs:237-276):
`E::create_inner(..)` is attempted for the node; on `Err` the error
propagates (`map_err(..)?`) — no entry is inserted and no child is created;
on `Ok` the children are created in order under the node's own spatial,
aborting at the first failing child (`?` inside the loop). The Bool is
whether the whole subtree succeeded. -/
def createSc (ok : Key → Bool) (sp : Key) : SElem → List Op × Bool
  | .mk _ k _ cs =>
    if ok k then
      let r := createScList ok k cs
      (Op.createAttempt k sp :: r.1, r.2)
    else ([Op.createAttempt k sp], false)

def createScList (ok : Key → Bool) (sp : Key) : List SElem → List Op × Bool
  | [] => ([], true)
  | c :: cs =>
    let r₁ := createSc ok sp c
    if r₁.2 then
      let r₂ := createScList ok sp cs
      (r₁.1 ++ r₂.1, r₂.2)
    else (r₁.1, false)

end

mutual

/-- `ElementWrapper::frame_recursive` (src/scenegraph.rs:277-295): when the
node's inner is absent, the whole subtree is skipped (the `let ... else
return` fires before the children loop). -/
def frameSc (live : Key → Bool) : SElem → List Op
  | .mk _ k _ cs => if live k then Op.frame k :: frameScList live cs else []

def frameScList (live : Key → Bool) : List SElem → List Op
  | [] => []
  | c :: cs => frameSc live c ++ frameScList live cs

end

/-- The children of the old tree whose key no longer occurs among the new
children — `delta_set.removed()` (src/lib.rs:94-110, src/scenegraph.rs:384-405). -/
def removedChildren (news olds : List SElem) : List SElem :=
  olds.filter (fun o => !keyMem o.key (keysOf news))

/-- The children of the new tree whose key did not occur among the old
children — `delta_set.added()`. -/
def addedChildren (news olds : List SElem) : List SElem :=
  news.filter (fun n => !keyMem n.key (keysOf olds))

mutual

/-- `ElementWrapper::<State, E>::diff_and_apply` (src/scenegraph.rs:355-413).
The old element is downcast to `&ElementWrapper<State, E>`; on success
(equal element types) the leaf update runs with the old params, then the
children phase runs: the common keys are diffed (each new child against the
old child with the same key, with the old child's spatial as parent), then
every removed child's subtree is destroyed, then every added child's
subtree is created under `parent_spatial`. On downcast failure,
`unwrap_or_else` destroys the old subtree, creates the new one (`.expect` —
the emitted attempts are modelled) and returns `self`, after which the
update runs with the new params standing in for the old ones and the
children phase diffs the new children against themselves. FxHashSet
iteration order is unspecified; the embedding iterates each phase in
declaration order. `childrenDiffSc` below names the children phase. -/
def sceneDiff (ok : Key → Bool) (sp : Key) : SElem → SElem → List Op
  | .mk etag k p cs, .mk etag' k' p' cs' =>
    if etag = etag' then
      Op.update k p p' ::
        (commonDiffSc ok cs cs' ++
          ((removedChildren cs cs').flatMap destroySc ++
            ((addedChildren cs cs').map (fun n => (createSc ok sp n).1)).flatten))
    else
      destroySc (.mk etag' k' p' cs') ++ (createSc ok sp (.mk etag k p cs)).1 ++
        (Op.update k p p ::
          (commonDiffSc ok cs cs ++
            ((removedChildren cs cs).flatMap destroySc ++
              ((addedChildren cs cs).map (fun n => (createSc ok sp n).1)).flatten)))

/-- The common-key pass of the children phase (src/scenegraph.rs:389-401):
each new child whose key occurs among the old children is diffed against
the old child holding the same key. -/
def commonDiffSc (ok : Key → Bool) : List SElem → List SElem → List Op
  | [], _ => []
  | n :: ns, olds =>
    (if keyMem n.key (keysOf olds) then
        match findByKey n.key olds with
        | some o => sceneDiff ok o.key n o
        | none => []
      else []) ++ commonDiffSc ok ns olds

end

/-- The children phase of `diff_and_apply` (src/scenegraph.rs:384-412):
the common pass, then the removed children's destroys, then the added
children's creates under `parent_spatial` — exactly the trace segment
`sceneDiff` emits after the node's own update. -/
def childrenDiffSc (ok : Key → Bool) (sp : Key) (news olds : List SElem) : List Op :=
  commonDiffSc ok news olds ++
    ((removedChildren news olds).flatMap destroySc ++
      ((addedChildren news olds).map (fun n => (createSc ok sp n).1)).flatten)

lemma sceneDiff_unfold (ok : Key → Bool) (sp : Key) (etag : Nat) (k : Key) (p : Nat)
    (cs : List SElem) (etag' : Nat) (k' : Key) (p' : Nat) (cs' : List SElem) :
    sceneDiff ok sp (.mk etag k p cs) (.mk etag' k' p' cs') =
      if etag = etag' then
        Op.update k p p' :: childrenDiffSc ok sp cs cs'
      else
        destroySc (.mk etag' k' p' cs') ++ (createSc ok sp (.mk etag k p cs)).1 ++
          (Op.update k p p :: childrenDiffSc ok sp cs cs) := by
  rw [sceneDiff, childrenDiffSc, childrenDiffSc]

mutual

/-- Specification-side: the trace of diffing a subtree against an identical
copy of itself — one update per node, new params equal to old params,
pre-order. -/
def selfUpdates : SElem → List Op
  | .mk _ k p cs => Op.update k p p :: selfUpdatesList cs

def selfUpdatesList : List SElem → List Op
  | [] => []
  | c :: cs => selfUpdates c ++ selfUpdatesList cs

end

def keysNodupB : List Key → Bool
  | [] => true
  | k :: ks => !keyMem k ks && keysNodupB ks

mutual

/-- Sibling keys are distinct at every level of the subtree (the usage
contract; a collision is a usage error per the spec). -/
def SElem.wfKeysB : SElem → Bool
  | .mk _ _ _ cs => keysNodupB (keysOf cs) && SElem.wfKeysListB cs

def SElem.wfKeysListB : List SElem → Bool
  | [] => true
  | c :: cs => c.wfKeysB && SElem.wfKeysListB cs

end

/-! ## Key assignment of the boxed engine (src/scenegraph.rs:71-77, 321-349) -/

/-- An element tree as reified, before key assignment: declared type tag,
type name, the optional explicit identity hint and params. -/
inductive UElem : Type where
  | mk (etag : Nat) (ename : String) (hint : Option Nat) (params : Nat)
      (children : List UElem)

/-- The hash of a `Vec<(usize, TypeId, &str)>` path, segment by segment. -/
def pathKey : List (Key × TyShape × String) → Key
  | [] => .pathNil
  | (i, t, s) :: rest => .pathCons i t s (pathKey rest)

mutual

/-- `ElementWrapper::apply_element_keys` (src/scenegraph.rs:321-349) over a
freshly reified tree. `Element::identify` (src/scenegraph.rs:71-77) pre-set
the `OnceLock` of an identified node to the hash of the hint alone, so for
such a node `get_or_init` keeps that key and the path restarts at a single
segment whose index slot holds the key value. An unidentified node extends
the parent path with `(order, TypeId, type_name)` and its key is the hash
of the whole path. -/
def UElem.applyKeys (parentPath : List (Key × TyShape × String)) (order : Nat) :
    UElem → SElem
  | .mk etag ename hint p cs =>
    match hint with
    | some h =>
      let path := [(Key.ofHint h, TyShape.base etag, ename)]
      SElem.mk etag (.ofHint h) p (UElem.applyKeysList path 0 cs)
    | none =>
      let path := parentPath ++ [(Key.lit order, TyShape.base etag, ename)]
      SElem.mk etag (pathKey path) p (UElem.applyKeysList path 0 cs)

def UElem.applyKeysList (path : List (Key × TyShape × String)) (i : Nat) :
    List UElem → List SElem
  | [] => []
  | c :: cs => UElem.applyKeys path i c :: UElem.applyKeysList path (i + 1) cs

end

/-! ## The Mapped (lens) combinator (src/mapped.rs, src/tree.rs:391-480) -/

/-- A boxed `GenericElement`: either a plain `ElementWrapper` subtree or a
`MappedElement<State, SubState, F>` (identified by `mtag`, which stands for
the concrete `(SubState, F)` instantiation) wrapping an element over the
substate. -/
inductive GEl : Type where
  | wrap (e : SElem)
  | mapped (mtag : Nat) (wrapped : SElem)

/-- `MappedElement::frame_recursive` (src/mapped.rs:64-74; likewise
`FlatmapElement::frame_recursive`, src/tree.rs:423-432): the wrapped
subtree's per-tick pass runs only when the projector returns `Some`;
on `None` nothing is called and nothing is touched. -/
def mappedFrame (live : Key → Bool) (proj : Bool) (wrapped : SElem) : List Op :=
  if proj then frameSc live wrapped else []

/-- `MappedElement::diff_and_apply` (src/mapped.rs:91-113): first `old.0` is
downcast to the same `MappedElement` type and the result is `unwrap()`ped —
an old element of a different concrete type panics (modelled as `.error`);
then the projector runs: on `None` the call returns having done nothing; on
`Some` the wrapped element's `diff_and_apply` is forwarded. -/
def mappedDiffAndApply (ok : Key → Bool) (mtagNew : Nat) (proj : Bool)
    (newWrapped : SElem) (sp : Key) (old : GEl) : Except String (List Op) :=
  match old with
  | .mapped mtag oldWrapped =>
    if mtagNew = mtag then
      if proj then .ok (sceneDiff ok sp newWrapped oldWrapped) else .ok []
    else .error "downcast of old element failed: unwrap panic"
  | .wrap _ => .error "downcast of old element failed: unwrap panic"

/-- One external tick for a mapped subtree: the per-tick frame pass over the
previous tree, then the reconciliation of the freshly reified tree against
it (the driver runs frames first, then reify and diff). -/
def mappedTick (ok live : Key → Bool) (sp : Key) (mtag : Nat) (proj : Bool)
    (newW oldW : SElem) : List Op :=
  mappedFrame live proj oldW ++
    (match mappedDiffAndApply ok mtag proj newW sp (.mapped mtag oldW) with
      | .ok ops => ops
      | .error _ => [])

/-- The trace of `N` consecutive ticks starting at tick `t`: tick `t + i`
frames the tree of tick `t + i` and diffs the tree of tick `t + i + 1`
against it. -/
def mappedRun (ok live : Key → Bool) (sp : Key) (mtag : Nat)
    (trees : Nat → SElem) (proj : Nat → Bool) (t N : Nat) : List Op :=
  (List.range N).flatMap fun i =>
    mappedTick ok live sp mtag (proj (t + i)) (trees (t + i + 1)) (trees (t + i))

lemma keyMem_of_mem (o : SElem) (es : List SElem) (h : o ∈ es) :
    keyMem o.key (keysOf es) = true := by
  induction es with
  | nil => simp at h
  | cons e es ih =>
    rcases List.mem_cons.mp h with rfl | h
    · simp [keysOf, keyMem]
    · by_cases he : e.key = o.key <;> simp [keysOf, keyMem, he, ih h] at ih ⊢
      exact ih h

lemma findByKey_nodup_self (es : List SElem) (hnd : keysNodupB (keysOf es) = true)
    (o : SElem) (h : o ∈ es) : findByKey o.key es = some o := by
  induction es with
  | nil => simp at h
  | cons e es ih =>
    simp only [keysOf, List.map_cons, keysNodupB, Bool.and_eq_true] at hnd
    obtain ⟨hnm, hnd'⟩ := hnd
    rcases List.mem_cons.mp h with rfl | h
    · simp [findByKey]
    · have hne : e.key ≠ o.key := by
        intro he
        have := keyMem_of_mem o es h
        rw [← he] at this
        simp [keysOf] at this hnm
        exact absurd this (by simpa using hnm)
      simp [findByKey, hne, ih hnd' h]

lemma wf_list_mem (es : List SElem) (h : SElem.wfKeysListB es = true) (c : SElem)
    (hc : c ∈ es) : SElem.wfKeysB c = true := by
  induction es with
  | nil => simp at hc
  | cons e es ih =>
    simp only [SElem.wfKeysListB, Bool.and_eq_true] at h
    rcases List.mem_cons.mp hc with rfl | hc
    · exact h.1
    · exact ih h.2 hc

lemma selfUpdatesList_shape : ∀ (es : List SElem) (op : Op),
    op ∈ selfUpdatesList es → ∃ k a, op = Op.update k a a
  | [], op => by intro hop; simp [selfUpdatesList] at hop
  | (.mk t k p cs) :: es, op => by
    intro hop
    simp only [selfUpdatesList, selfUpdates, List.mem_append, List.mem_cons] at hop
    rcases hop with (rfl | hop) | hop
    · exact ⟨k, p, rfl⟩
    · exact selfUpdatesList_shape cs op hop
    · exact selfUpdatesList_shape es op hop

mutual

theorem sceneDiff_self : ∀ (ok : Key → Bool) (sp : Key) (n : SElem),
    SElem.wfKeysB n = true → sceneDiff ok sp n n = selfUpdates n
  | ok, sp, .mk etag k p cs, h => by
    simp only [SElem.wfKeysB, Bool.and_eq_true] at h
    obtain ⟨h₁, h₂⟩ := h
    have hcommon := commonDiff_self ok cs cs h₁ h₂ (fun x hx => hx)
    have hrem : removedChildren cs cs = [] := by
      rw [removedChildren, List.filter_eq_nil_iff]
      intro o ho
      simp [keyMem_of_mem o cs ho]
    have hadd : addedChildren cs cs = [] := by
      rw [addedChildren, List.filter_eq_nil_iff]
      intro o ho
      simp [keyMem_of_mem o cs ho]
    simp [sceneDiff, selfUpdates, childrenDiffSc, hcommon, hrem, hadd]

theorem commonDiff_self : ∀ (ok : Key → Bool) (ns olds : List SElem),
    keysNodupB (keysOf olds) = true → SElem.wfKeysListB olds = true →
    (∀ x ∈ ns, x ∈ olds) → commonDiffSc ok ns olds = selfUpdatesList ns
  | ok, [], olds, _, _, _ => by simp [commonDiffSc, selfUpdatesList]
  | ok, n :: ns, olds, h₁, h₂, hsub => by
    have hno : n ∈ olds := hsub n (List.mem_cons_self n ns)
    have hkm : keyMem n.key (keysOf olds) = true := keyMem_of_mem n olds hno
    have hfind : findByKey n.key olds = some n := findByKey_nodup_self olds h₁ n hno
    have hwf : SElem.wfKeysB n = true := wf_list_mem olds h₂ n hno
    have hrec := commonDiff_self ok ns olds h₁ h₂
      (fun x hx => hsub x (List.mem_cons_of_mem n hx))
    have hself := sceneDiff_self ok n.key n hwf
    simp [commonDiffSc, selfUpdatesList, hkm, hfind, hself, hrec]

end

mutual

theorem destroySc_all_destroy : ∀ (e : SElem) (op : Op),
    op ∈ destroySc e → op.isDestroy = true
  | .mk t k p cs, op => by
    intro hop
    simp only [destroySc, List.mem_append, List.mem_singleton] at hop
    rcases hop with hop | rfl
    · exact destroyScList_all_destroy cs op hop
    · rfl

theorem destroyScList_all_destroy : ∀ (es : List SElem) (op : Op),
    op ∈ destroyScList es → op.isDestroy = true
  | [], op => by intro hop; simp [destroyScList] at hop
  | c :: cs, op => by
    intro hop
    simp only [destroyScList, List.mem_append] at hop
    rcases hop with hop | hop
    · exact destroySc_all_destroy c op hop
    · exact destroyScList_all_destroy cs op hop

end

mutual

theorem createSc_spec : ∀ (ok : Key → Bool) (sp : Key) (e : SElem) (op : Op),
    op ∈ (createSc ok sp e).1 → op.isCreate = true ∧ op.opKey ∈ e.subKeys
  | ok, sp, .mk t k p cs, op => by
    intro hop
    by_cases hok : ok k = true
    · simp only [createSc, hok, if_pos, List.mem_cons] at hop
      rcases hop with rfl | hop
      · exact ⟨rfl, by simp [Op.opKey, SElem.subKeys]⟩
      · obtain ⟨h₁, h₂⟩ := createScList_spec ok k cs op hop
        exact ⟨h₁, by simp [SElem.subKeys, h₂]⟩
    · simp only [createSc, hok, if_neg, List.mem_singleton, Bool.not_eq_true] at hop
      subst hop
      exact ⟨rfl, by simp [Op.opKey, SElem.subKeys]⟩

theorem createScList_spec : ∀ (ok : Key → Bool) (sp : Key) (es : List SElem) (op : Op),
    op ∈ (createScList ok sp es).1 → op.isCreate = true ∧ op.opKey ∈ SElem.subKeysList es
  | ok, sp, [], op => by intro hop; simp [createScList] at hop
  | ok, sp, c :: cs, op => by
    intro hop
    by_cases hs : (createSc ok sp c).2 = true
    · simp only [createScList, hs, if_pos, List.mem_append] at hop
      rcases hop with hop | hop
      · obtain ⟨h₁, h₂⟩ := createSc_spec ok sp c op hop
        exact ⟨h₁, by simp [SElem.subKeysList, h₂]⟩
      · obtain ⟨h₁, h₂⟩ := createScList_spec ok sp cs op hop
        exact ⟨h₁, by simp [SElem.subKeysList, h₂]⟩
    · simp only [createScList, hs, if_neg, Bool.not_eq_true] at hop
      obtain ⟨h₁, h₂⟩ := createSc_spec ok sp c op hop
      exact ⟨h₁, by simp [SElem.subKeysList, h₂]⟩

end

lemma mem_subKeysList (es : List SElem) (j : Key) :
    j ∈ SElem.subKeysList es ↔ ∃ x ∈ es, j ∈ x.subKeys := by
  induction es with
  | nil => simp [SElem.subKeysList]
  | cons e es ih => simp [SElem.subKeysList, ih]

lemma subKeys_disjoint_of_nodup (es : List SElem) (hnd : (SElem.subKeysList es).Nodup)
    (x y : SElem) (hx : x ∈ es) (hy : y ∈ es) (j : Key) (hjx : j ∈ x.subKeys)
    (hjy : j ∈ y.subKeys) : x = y := by
  induction es with
  | nil => simp at hx
  | cons e es ih =>
    rw [show SElem.subKeysList (e :: es) = e.subKeys ++ SElem.subKeysList es from rfl,
      List.nodup_append] at hnd
    obtain ⟨_, hnd', hdisj⟩ := hnd
    rcases List.mem_cons.mp hx with hxe | hx₀
    · rcases List.mem_cons.mp hy with hye | hy₀
      · rw [hxe, hye]
      · have hje : j ∈ e.subKeys := hxe ▸ hjx
        exact absurd ((mem_subKeysList es j).mpr ⟨y, hy₀, hjy⟩) (hdisj hje)
    · rcases List.mem_cons.mp hy with hye | hy₀
      · have hje : j ∈ e.subKeys := hye ▸ hjy
        exact absurd ((mem_subKeysList es j).mpr ⟨x, hx₀, hjx⟩) (hdisj hje)
      · exact ih hnd' hx₀ hy₀

lemma flatMap_destroy_no_create (es : List SElem) (op : Op)
    (hop : op ∈ es.flatMap destroySc) : op.isCreate = false := by
  obtain ⟨e, _, hope⟩ := List.mem_flatMap.mp hop
  have := destroySc_all_destroy e op hope
  cases op <;> simp_all [Op.isCreate, Op.isDestroy]

mutual

theorem sceneDiff_createKeys : ∀ (ok : Key → Bool) (sp : Key) (n o : SElem) (op : Op),
    op ∈ sceneDiff ok sp n o → op.isCreate = true → op.opKey ∈ n.subKeys
  | ok, sp, .mk t k p cs, .mk t' k' p' cs', op => by
    intro hop hc
    by_cases ht : t = t'
    · rw [sceneDiff, if_pos ht] at hop
      rcases List.mem_cons.mp hop with rfl | hop
      · simp [Op.isCreate] at hc
      · rcases List.mem_append.mp hop with hop | hop
        · obtain ⟨x, hx, _, hsub⟩ := commonDiffSc_createKeys ok cs cs' op hop hc
          exact List.mem_cons_of_mem k ((mem_subKeysList cs op.opKey).mpr ⟨x, hx, hsub⟩)
        · rcases List.mem_append.mp hop with hop | hop
          · rw [flatMap_destroy_no_create _ op hop] at hc
            exact absurd hc (by simp)
          · obtain ⟨l, hl, hopl⟩ := List.mem_flatten.mp hop
            obtain ⟨a, ha, rfl⟩ := List.mem_map.mp hl
            have han : a ∈ cs := (List.mem_filter.mp ha).1
            exact List.mem_cons_of_mem k
              ((mem_subKeysList cs op.opKey).mpr ⟨a, han, (createSc_spec ok sp a op hopl).2⟩)
    · rw [sceneDiff, if_neg ht] at hop
      rcases List.mem_append.mp hop with hop | hop
      · rcases List.mem_append.mp hop with hop | hop
        · have := destroySc_all_destroy _ op hop
          cases op <;> simp_all [Op.isCreate, Op.isDestroy]
        · exact (createSc_spec ok sp (.mk t k p cs) op hop).2
      · rcases List.mem_cons.mp hop with rfl | hop
        · simp [Op.isCreate] at hc
        · rcases List.mem_append.mp hop with hop | hop
          · obtain ⟨x, hx, _, hsub⟩ := commonDiffSc_createKeys ok cs cs op hop hc
            exact List.mem_cons_of_mem k ((mem_subKeysList cs op.opKey).mpr ⟨x, hx, hsub⟩)
          · rcases List.mem_append.mp hop with hop | hop
            · rw [flatMap_destroy_no_create _ op hop] at hc
              exact absurd hc (by simp)
            · obtain ⟨l, hl, hopl⟩ := List.mem_flatten.mp hop
              obtain ⟨a, ha, rfl⟩ := List.mem_map.mp hl
              have han : a ∈ cs := (List.mem_filter.mp ha).1
              exact List.mem_cons_of_mem k ((mem_subKeysList cs op.opKey).mpr
                ⟨a, han, (createSc_spec ok sp a op hopl).2⟩)

theorem commonDiffSc_createKeys : ∀ (ok : Key → Bool) (ns os : List SElem) (op : Op),
    op ∈ commonDiffSc ok ns os → op.isCreate = true →
    ∃ n, n ∈ ns ∧ keyMem n.key (keysOf os) = true ∧ op.opKey ∈ n.subKeys
  | ok, [], os, op => by intro hop _; simp [commonDiffSc] at hop
  | ok, n :: ns, os, op => by
    intro hop hc
    rw [commonDiffSc] at hop
    rcases List.mem_append.mp hop with hop | hop
    · by_cases hkm : keyMem n.key (keysOf os) = true
      · rw [if_pos hkm] at hop
        cases hfind : findByKey n.key os with
        | none => rw [hfind] at hop; simp at hop
        | some o =>
          rw [hfind] at hop
          exact ⟨n, List.mem_cons_self n ns, hkm,
            sceneDiff_createKeys ok o.key n o op hop hc⟩
      · rw [if_neg hkm] at hop
        simp at hop
    · obtain ⟨x, hx, hkm, hsub⟩ := commonDiffSc_createKeys ok ns os op hop hc
      exact ⟨x, List.mem_cons_of_mem n hx, hkm, hsub⟩

end

theorem childrenDiffSc_createKeys (ok : Key → Bool) (sp : Key) (ns os : List SElem)
    (op : Op) (hop : op ∈ childrenDiffSc ok sp ns os) (hc : op.isCreate = true) :
    op.opKey ∈ SElem.subKeysList ns := by
  rw [childrenDiffSc] at hop
  rcases List.mem_append.mp hop with hop | hop
  · obtain ⟨n, hn, _, hsub⟩ := commonDiffSc_createKeys ok ns os op hop hc
    exact (mem_subKeysList ns op.opKey).mpr ⟨n, hn, hsub⟩
  · rcases List.mem_append.mp hop with hop | hop
    · rw [flatMap_destroy_no_create _ op hop] at hc
      exact absurd hc (by simp)
    · obtain ⟨l, hl, hopl⟩ := List.mem_flatten.mp hop
      obtain ⟨a, ha, rfl⟩ := List.mem_map.mp hl
      have han : a ∈ ns := (List.mem_filter.mp ha).1
      exact (mem_subKeysList ns op.opKey).mpr ⟨a, han, (createSc_spec ok sp a op hopl).2⟩

/-- C3 (amended): in the boxed engine's children reconciliation, diffing a
permutation of the previous tick's children — children matched by key,
sibling keys distinct at every level — destroys no node and creates no node:
the trace is exactly one update per node of every subtree, each new child
matched (by key, i.e. by its explicit identity) to its identical old
version, so every update call carries the matched node's own old params. -/
theorem c3_keyed_reorder_updates_only (ok : Key → Bool) (sp : Key)
    (news olds : List SElem) (hperm : news.Perm olds)
    (hnd : keysNodupB (keysOf olds) = true) (hwf : SElem.wfKeysListB olds = true) :
    childrenDiffSc ok sp news olds = selfUpdatesList news ∧
      ∀ op ∈ childrenDiffSc ok sp news olds, op.isCreate = false ∧ op.isDestroy = false := by
  have hsub : ∀ x ∈ news, x ∈ olds := fun x hx => hperm.mem_iff.mp hx
  have hsub' : ∀ o ∈ olds, o ∈ news := fun o ho => hperm.mem_iff.mpr ho
  have hcommon := commonDiff_self ok news olds hnd hwf hsub
  have hrem : removedChildren news olds = [] := by
    rw [removedChildren, List.filter_eq_nil_iff]
    intro o ho
    simp [keyMem_of_mem o news (hsub' o ho)]
  have hadd : addedChildren news olds = [] := by
    rw [addedChildren, List.filter_eq_nil_iff]
    intro n hn
    simp [keyMem_of_mem n olds (hsub n hn)]
  have htrace : childrenDiffSc ok sp news olds = selfUpdatesList news := by
    simp [childrenDiffSc, hcommon, hrem, hadd]
  refine ⟨htrace, ?_⟩
  intro op hop
  rw [htrace] at hop
  obtain ⟨k, a, rfl⟩ := selfUpdatesList_shape news op hop
  exact ⟨rfl, rfl⟩

theorem c3_keyed_reorder_updates_only_witness :
    ([SElem.mk 1 (.ofHint 3) 3 [], SElem.mk 1 (.ofHint 1) 1 [],
        SElem.mk 1 (.ofHint 2) 2 []].Perm
      [SElem.mk 1 (.ofHint 1) 1 [], SElem.mk 1 (.ofHint 2) 2 [],
        SElem.mk 1 (.ofHint 3) 3 []]) ∧
    (keysNodupB (keysOf [SElem.mk 1 (.ofHint 1) 1 [], SElem.mk 1 (.ofHint 2) 2 [],
        SElem.mk 1 (.ofHint 3) 3 []]) = true) ∧
    (SElem.wfKeysListB [SElem.mk 1 (.ofHint 1) 1 [], SElem.mk 1 (.ofHint 2) 2 [],
        SElem.mk 1 (.ofHint 3) 3 []] = true) ∧
    (childrenDiffSc (fun _ => true) (.lit 9)
        [SElem.mk 1 (.ofHint 3) 3 [], SElem.mk 1 (.ofHint 1) 1 [],
          SElem.mk 1 (.ofHint 2) 2 []]
        [SElem.mk 1 (.ofHint 1) 1 [], SElem.mk 1 (.ofHint 2) 2 [],
          SElem.mk 1 (.ofHint 3) 3 []] =
      selfUpdatesList [SElem.mk 1 (.ofHint 3) 3 [], SElem.mk 1 (.ofHint 1) 1 [],
        SElem.mk 1 (.ofHint 2) 2 []] ∧
      ∀ op ∈ childrenDiffSc (fun _ => true) (.lit 9)
          [SElem.mk 1 (.ofHint 3) 3 [], SElem.mk 1 (.ofHint 1) 1 [],
            SElem.mk 1 (.ofHint 2) 2 []]
          [SElem.mk 1 (.ofHint 1) 1 [], SElem.mk 1 (.ofHint 2) 2 [],
            SElem.mk 1 (.ofHint 3) 3 []],
        op.isCreate = false ∧ op.isDestroy = false) :=
  ⟨by decide, by decide, by decide,
    c3_keyed_reorder_updates_only (fun _ => true) (.lit 9) _ _ (by decide) (by decide)
      (by decide)⟩

/-- C4: in the children phase of the boxed engine's `diff_and_apply`, with
subtree keys of the new children pairwise distinct, every destroy in the
trace — in particular every destroy of a removed child's subtree — occurs
strictly before every create of an added child's subtree: the common phase
never creates a key belonging to an added child, the removal phase emits
only destroys, and the creation phase of the added children runs last. -/
theorem c4_removals_precede_added_creations (ok : Key → Bool) (sp : Key)
    (news olds : List SElem) (hnd : (SElem.subKeysList news).Nodup)
    (_hrem : removedChildren news olds ≠ []) (_hadd : addedChildren news olds ≠ [])
    (i j : Nat) (kc kp kd : Key)
    (hci : (childrenDiffSc ok sp news olds)[i]? = some (.createAttempt kc kp))
    (hkc : kc ∈ SElem.subKeysList (addedChildren news olds))
    (hdj : (childrenDiffSc ok sp news olds)[j]? = some (.destroy kd)) :
    j < i := by
  have htrace : childrenDiffSc ok sp news olds =
      commonDiffSc ok news olds ++
        ((removedChildren news olds).flatMap destroySc ++
          ((addedChildren news olds).map (fun n => (createSc ok sp n).1)).flatten) := rfl
  set L₁ := commonDiffSc ok news olds with hL₁
  set L₂ := (removedChildren news olds).flatMap destroySc with hL₂
  set L₃ := ((addedChildren news olds).map (fun n => (createSc ok sp n).1)).flatten with hL₃
  rw [htrace] at hci hdj
  have hiL : L₁.length + L₂.length ≤ i := by
    by_contra hlt
    push_neg at hlt
    by_cases h1 : i < L₁.length
    · rw [List.getElem?_append_left h1] at hci
      have hmem : (Op.createAttempt kc kp) ∈ L₁ := List.getElem?_mem hci
      obtain ⟨n, hn, hkmn, hkn⟩ := commonDiffSc_createKeys ok news olds _ hmem rfl
      obtain ⟨a, ha, hka⟩ := (mem_subKeysList _ kc).mp hkc
      have han : a ∈ news := (List.mem_filter.mp ha).1
      have hkaF : ¬ keyMem a.key (keysOf olds) = true := by
        have := (List.mem_filter.mp ha).2
        simpa using this
      have heq : n = a := subKeys_disjoint_of_nodup news hnd n a hn han kc hkn hka
      rw [heq] at hkmn
      exact hkaF hkmn
    · push_neg at h1
      rw [List.getElem?_append_right h1, List.getElem?_append_left (by omega)] at hci
      have hmem : (Op.createAttempt kc kp) ∈ L₂ := List.getElem?_mem hci
      obtain ⟨e, _, hop⟩ := List.mem_flatMap.mp hmem
      have := destroySc_all_destroy e _ hop
      simp [Op.isDestroy] at this
  have hjL : j < L₁.length + L₂.length := by
    by_contra hge
    push_neg at hge
    rw [List.getElem?_append_right (by omega), List.getElem?_append_right (by omega)] at hdj
    have hmem : (Op.destroy kd) ∈ L₃ := List.getElem?_mem hdj
    obtain ⟨l, hl, hop⟩ := List.mem_flatten.mp hmem
    obtain ⟨a, _, rfl⟩ := List.mem_map.mp hl
    have := (createSc_spec ok sp a _ hop).1
    simp [Op.isCreate] at this
  omega

theorem c4_removals_precede_added_creations_witness :
    ((SElem.subKeysList [SElem.mk 1 (.ofHint 2) 2 [], SElem.mk 1 (.ofHint 3) 3 []]).Nodup) ∧
    (removedChildren [SElem.mk 1 (.ofHint 2) 2 [], SElem.mk 1 (.ofHint 3) 3 []]
        [SElem.mk 1 (.ofHint 1) 1 [], SElem.mk 1 (.ofHint 2) 2 []] ≠ []) ∧
    (addedChildren [SElem.mk 1 (.ofHint 2) 2 [], SElem.mk 1 (.ofHint 3) 3 []]
        [SElem.mk 1 (.ofHint 1) 1 [], SElem.mk 1 (.ofHint 2) 2 []] ≠ []) ∧
    ((childrenDiffSc (fun _ => true) (.lit 9)
        [SElem.mk 1 (.ofHint 2) 2 [], SElem.mk 1 (.ofHint 3) 3 []]
        [SElem.mk 1 (.ofHint 1) 1 [], SElem.mk 1 (.ofHint 2) 2 []])[2]? =
      some (.createAttempt (.ofHint 3) (.lit 9))) ∧
    ((.ofHint 3 : Key) ∈ SElem.subKeysList
      (addedChildren [SElem.mk 1 (.ofHint 2) 2 [], SElem.mk 1 (.ofHint 3) 3 []]
        [SElem.mk 1 (.ofHint 1) 1 [], SElem.mk 1 (.ofHint 2) 2 []])) ∧
    ((childrenDiffSc (fun _ => true) (.lit 9)
        [SElem.mk 1 (.ofHint 2) 2 [], SElem.mk 1 (.ofHint 3) 3 []]
        [SElem.mk 1 (.ofHint 1) 1 [], SElem.mk 1 (.ofHint 2) 2 []])[1]? =
      some (.destroy (.ofHint 1))) ∧
    (1 : Nat) < 2 :=
  ⟨by decide, by decide, by decide, by decide, by decide, by decide,
    c4_removals_precede_added_creations (fun _ => true) (.lit 9)
      [SElem.mk 1 (.ofHint 2) 2 [], SElem.mk 1 (.ofHint 3) 3 []]
      [SElem.mk 1 (.ofHint 1) 1 [], SElem.mk 1 (.ofHint 2) 2 []]
      (by decide) (by decide) (by decide) 2 1 (.ofHint 3) (.lit 9) (.ofHint 1)
      (by decide) (by decide) (by decide)⟩

lemma mappedTick_proj_false (ok live : Key → Bool) (sp : Key) (mtag : Nat)
    (newW oldW : SElem) :
    mappedTick ok live sp mtag false newW oldW = [] := by
  simp [mappedTick, mappedFrame, mappedDiffAndApply]

/-- C6: for every tick in which the lens projector returns `None`, the
wrapped subtree receives zero per-tick frame callbacks and zero diff or
update calls, and nothing is removed from the native-resource map (the tick
contributes an empty trace, so in particular no destroy op); on the first
tick the projector returns `Some` again, forwarding resumes — the tick is
exactly the frame pass plus the wrapped diff — with no destroy or create
having occurred during the `None` ticks in between. -/
theorem c6_lens_none_ticks_transparent (ok live : Key → Bool) (sp : Key) (mtag : Nat)
    (trees : Nat → SElem) (proj : Nat → Bool) (t N : Nat)
    (hnone : ∀ i, i < N → proj (t + i) = false) :
    mappedRun ok live sp mtag trees proj t N = [] ∧
      (proj (t + N) = true →
        mappedTick ok live sp mtag (proj (t + N)) (trees (t + N + 1)) (trees (t + N)) =
          frameSc live (trees (t + N)) ++
            sceneDiff ok sp (trees (t + N + 1)) (trees (t + N))) := by
  constructor
  · rw [mappedRun, List.flatMap_eq_nil_iff]
    intro i hi
    rw [hnone i (List.mem_range.mp hi)]
    exact mappedTick_proj_false ok live sp mtag _ _
  · intro hs
    simp [mappedTick, mappedFrame, mappedDiffAndApply, hs]

theorem c6_lens_none_ticks_transparent_witness :
    (∀ i, i < 2 → (fun j : Nat => decide (2 ≤ j)) (0 + i) = false) ∧
      (mappedRun (fun _ => true) (fun _ => true) (.lit 9) 0
          (fun _ => SElem.mk 1 (.lit 0) 5 []) (fun j => decide (2 ≤ j)) 0 2 = [] ∧
        ((fun j : Nat => decide (2 ≤ j)) (0 + 2) = true →
          mappedTick (fun _ => true) (fun _ => true) (.lit 9) 0
              ((fun j : Nat => decide (2 ≤ j)) (0 + 2))
              ((fun _ => SElem.mk 1 (.lit 0) 5 []) (0 + 2 + 1))
              ((fun _ => SElem.mk 1 (.lit 0) 5 []) (0 + 2)) =
            frameSc (fun _ => true) ((fun _ => SElem.mk 1 (.lit 0) 5 []) (0 + 2)) ++
              sceneDiff (fun _ => true) (.lit 9)
                ((fun _ => SElem.mk 1 (.lit 0) 5 []) (0 + 2 + 1))
                ((fun _ => SElem.mk 1 (.lit 0) 5 []) (0 + 2)))) :=
  ⟨by decide,
    c6_lens_none_ticks_transparent (fun _ => true) (fun _ => true) (.lit 9) 0
      (fun _ => SElem.mk 1 (.lit 0) 5 []) (fun j => decide (2 ≤ j)) 0 2 (by decide)⟩

/-- C1 (amended): in the dynamic differ (`diff_dynamic`) the concrete type
is checked before any downcast is committed to, and a failed check routes
to destroying the old subtree and creating the new one, with no update call
and no panic; `MappedElement::diff_and_apply`, however, unwraps the
downcast of the old element before any check, so every matched pair whose
old element is not the same mapped concrete type panics instead. -/
theorem c1_type_mismatch_no_panic_except_mapped :
    (∀ (ok : Key → Bool) (sp k : Key) (new old : StaticEl) (m : InnerMap),
        new.shape ≠ old.shape →
        (StaticEl.diffDynamic ok sp k new old m).1 =
            (StaticEl.destroy k old m).1 ++
              (StaticEl.create ok sp k new (StaticEl.destroy k old m).2).1 ∧
          ∀ op ∈ (StaticEl.diffDynamic ok sp k new old m).1, op.isUpdate = false) ∧
    (∀ (ok : Key → Bool) (mtag : Nat) (proj : Bool) (newW : SElem) (sp : Key)
        (old : GEl), (∀ w, old ≠ GEl.mapped mtag w) →
        ∃ s, mappedDiffAndApply ok mtag proj newW sp old = .error s) := by
  constructor
  · intro ok sp k new old m h
    have htr : (StaticEl.diffDynamic ok sp k new old m).1 =
        (StaticEl.destroy k old m).1 ++
          (StaticEl.create ok sp k new (StaticEl.destroy k old m).2).1 := by
      simp [StaticEl.diffDynamic, h]
    refine ⟨htr, ?_⟩
    intro op hop
    rw [htr] at hop
    rcases List.mem_append.mp hop with hop | hop
    · rw [destroy_ops k old m] at hop
      obtain ⟨k', _, rfl⟩ := List.mem_map.mp hop
      rfl
    · exact Op.isCreate_not_isUpdate op
        ((create_spec ok sp k new (StaticEl.destroy k old m).2).2 op hop)
  · intro ok mtag proj newW sp old hold
    cases old with
    | wrap e => exact ⟨_, rfl⟩
    | mapped mtag' w =>
      by_cases hm : mtag = mtag'
      · exact absurd (by rw [hm]) (hold w)
      · exact ⟨"downcast of old element failed: unwrap panic",
          by simp [mappedDiffAndApply, hm]⟩

/-- C1 counterexample: a matched pair at one key whose new element is a
mapped (lens) element and whose old element is a plain wrapper of a
different concrete type. `MappedElement::diff_and_apply` runs
`downcast_ref().unwrap()` on the old element before any type check, so the
reconciler panics on this pair instead of routing to destroy + recreate. -/
theorem c1_counterexample_mapped_downcast_panics :
    mappedDiffAndApply (fun _ => true) 0 true (SElem.mk 1 (.lit 0) 0 []) (.lit 9)
        (.wrap (SElem.mk 2 (.lit 0) 0 [])) =
      .error "downcast of old element failed: unwrap panic" := rfl

theorem c1_type_mismatch_no_panic_except_mapped_witness :
    ((StaticEl.wrapper 1 true 0 none .cempty).shape ≠
        (StaticEl.wrapper 2 true 0 none .cempty).shape ∧
      ((StaticEl.diffDynamic (fun _ => true) (.lit 9) (.lit 0)
            (.wrapper 1 true 0 none .cempty) (.wrapper 2 true 0 none .cempty) []).1 =
          (StaticEl.destroy (.lit 0) (.wrapper 2 true 0 none .cempty) []).1 ++
            (StaticEl.create (fun _ => true) (.lit 9) (.lit 0)
              (.wrapper 1 true 0 none .cempty)
              (StaticEl.destroy (.lit 0) (.wrapper 2 true 0 none .cempty) []).2).1 ∧
        ∀ op ∈ (StaticEl.diffDynamic (fun _ => true) (.lit 9) (.lit 0)
            (.wrapper 1 true 0 none .cempty) (.wrapper 2 true 0 none .cempty) []).1,
          op.isUpdate = false)) ∧
    ((∀ w, GEl.wrap (SElem.mk 2 (.lit 0) 0 []) ≠ GEl.mapped 0 w) ∧
      ∃ s, mappedDiffAndApply (fun _ => true) 0 true (SElem.mk 1 (.lit 0) 0 [])
          (.lit 9) (.wrap (SElem.mk 2 (.lit 0) 0 [])) = .error s) :=
  ⟨⟨by decide,
      c1_type_mismatch_no_panic_except_mapped.1 (fun _ => true) (.lit 9) (.lit 0)
        (.wrapper 1 true 0 none .cempty) (.wrapper 2 true 0 none .cempty) []
        (by decide)⟩,
    ⟨fun w h => GEl.noConfusion h,
      c1_type_mismatch_no_panic_except_mapped.2 (fun _ => true) 0 true
        (SElem.mk 1 (.lit 0) 0 []) (.lit 9) (.wrap (SElem.mk 2 (.lit 0) 0 []))
        (fun w h => GEl.noConfusion h)⟩⟩

/-- C2 (amended): in the boxed engine's key assignment, an explicitly
identified node's key is the hash of the hint alone — the same key for
every parent path and every position, with neither the parent key nor the
type tag absorbed — while an unidentified node's key is the hash of its
whole path of (position, type, name) segments; the static engine's helpers
do compute hash(parent key, position, type tag) and
hash(parent key, stable id, type tag). -/
theorem c2_assigned_keys (etag : Nat) (ename : String) (h p : Nat) (cs : List UElem)
    (parentPath : List (Key × TyShape × String)) (order : Nat) :
    (UElem.applyKeys parentPath order (.mk etag ename (some h) p cs)).key =
        Key.ofHint h ∧
      (UElem.applyKeys parentPath order (.mk etag ename none p cs)).key =
        pathKey (parentPath ++ [(Key.lit order, .base etag, ename)]) ∧
      (∀ (t : TyShape) (pk : Key) (pos : Nat),
        generate_positional_inner_key t pk pos = .triple pk (.lit pos) t) ∧
      (∀ (t : TyShape) (pk sid : Key),
        generate_keyed_inner_key t pk sid = .triple pk sid t) :=
  ⟨rfl, rfl, fun _ _ _ => rfl, fun _ _ _ => rfl⟩

/-- C2 counterexample: one root with an explicitly identified child (hint
`42`) and an unidentified child. The boxed key assignment gives the
identified child the key `hash(42)` — not
`hash(parent key, hint, type tag)` — and gives the unidentified child the
hash of its whole path — not `hash(parent key, position, type tag)`. -/
theorem c2_counterexample_scene_assignment :
    ((UElem.applyKeys [] 0
        (.mk 1 "Root" none 0
          [.mk 7 "Hinted" (some 42) 0 [], .mk 5 "Plain" none 0 []])).children.map
        SElem.key =
      [Key.ofHint 42,
        pathKey [(Key.lit 0, .base 1, "Root"), (Key.lit 1, .base 5, "Plain")]]) ∧
    Key.ofHint 42 ≠
      generate_keyed_inner_key (.base 7)
        (UElem.applyKeys [] 0
          (.mk 1 "Root" none 0
            [.mk 7 "Hinted" (some 42) 0 [], .mk 5 "Plain" none 0 []])).key
        (.ofHint 42) ∧
    pathKey [(Key.lit 0, .base 1, "Root"), (Key.lit 1, .base 5, "Plain")] ≠
      generate_positional_inner_key (.base 5)
        (UElem.applyKeys [] 0
          (.mk 1 "Root" none 0
            [.mk 7 "Hinted" (some 42) 0 [], .mk 5 "Plain" none 0 []])).key 1 := by
  decide

/-- C7 counterexample: in the boxed engine's `create_inner_recursive` a
failing `E::create_inner` propagates the error (`map_err(..)?`): the node
gets no entry and its children are never attempted — the child keyed
`.lit 2` receives no create attempt — contradicting the claim that the
subtree's creation is attempted regardless with the parent as fallback. -/
theorem c7_counterexample_scene_create_aborts :
    createSc (fun k => k ≠ Key.lit 1) (.lit 9)
        (SElem.mk 1 (.lit 1) 0 [SElem.mk 2 (.lit 2) 0 []]) =
      ([Op.createAttempt (.lit 1) (.lit 9)], false) ∧
      Op.createAttempt (.lit 2) (.lit 1) ∉
        (createSc (fun k => k ≠ Key.lit 1) (.lit 9)
          (SElem.mk 1 (.lit 1) 0 [SElem.mk 2 (.lit 2) 0 []])).1 := by
  decide

/-- C8: the Resource Registry holds exactly one entry for a declared
element type's shared resource: the entry is lazily default-constructed on
the first access, and every subsequent `create`/`update` call of every
instance of the type reads and mutates that same single entry — after any
sequence of calls the entry count for the resource type is still one and
the stored value is the fold of all the calls' mutations over the default. -/
theorem c8_registry_lazy_singleton (rtag dflt : Nat) (fs : List (Nat → Nat))
    (r : ResourceRegistry) (h : regFind rtag r = none) :
    (regGet rtag dflt r).1 = dflt ∧
      regCount rtag (regGet rtag dflt r).2 = 1 ∧
      regFind rtag (regCalls rtag dflt fs (regGet rtag dflt r).2) =
        some (fs.foldl (fun a f => f a) dflt) ∧
      regCount rtag (regCalls rtag dflt fs (regGet rtag dflt r).2) = 1 := by
  have hget : regGet rtag dflt r = (dflt, (rtag, dflt) :: r) := by
    simp [regGet, h]
  have hfind : regFind rtag ((rtag, dflt) :: r) = some dflt := by simp [regFind]
  have hcount : regCount rtag ((rtag, dflt) :: r) = 1 := by
    have h0 := regFind_none_count rtag r h
    simp only [regCount, List.countP_cons] at h0 ⊢
    simp [h0]
  obtain ⟨h₁, h₂⟩ := regCalls_invariant rtag dflt fs ((rtag, dflt) :: r) dflt hfind hcount
  rw [hget]
  exact ⟨rfl, hcount, h₁, h₂⟩

theorem c8_registry_lazy_singleton_witness :
    (regFind 5 [(3, 7)] = none) ∧
      ((regGet 5 0 [(3, 7)]).1 = 0 ∧
        regCount 5 (regGet 5 0 [(3, 7)]).2 = 1 ∧
        regFind 5 (regCalls 5 0 [fun v => v + 1, fun v => v * 10]
            (regGet 5 0 [(3, 7)]).2) =
          some ([fun v => v + 1, fun v => v * 10].foldl (fun a f => f a) 0) ∧
        regCount 5 (regCalls 5 0 [fun v => v + 1, fun v => v * 10]
            (regGet 5 0 [(3, 7)]).2) = 1) :=
  ⟨by decide,
    c8_registry_lazy_singleton 5 0 [fun v => v + 1, fun v => v * 10] [(3, 7)]
      (by decide)⟩

/-- C10: `ElementInnerMap::get` and `get_mut` are total and never panic —
they return `none` both when the key is absent and when the stored inner
value's concrete type differs from the requested element type's `Inner`
type; `insert` overwrites any existing entry at the same key; `remove` of
an absent key is a no-op. -/
theorem c10_inner_map_contract (t t' k v v' : Nat) (m m' : DMap)
    (habsent : dFind k m = none) (hstored : dFind k m' = some (t', v'))
    (hdiff : t' ≠ t) :
    dGet t k m = none ∧ dGet t k m' = none ∧
      (∀ m₀ : DMap, dGet t k (dInsert k t v m₀) = some v) ∧
      dRemove k m = m := by
  refine ⟨?_, ?_, ?_, ?_⟩
  · simp [dGet, habsent]
  · simp [dGet, hstored, hdiff]
  · intro m₀
    simp [dGet, dFind_dInsert_self]
  · exact dErase_absent k m habsent

theorem c10_inner_map_contract_witness :
    (dFind 0 ([] : DMap) = none) ∧ (dFind 0 [(0, (2, 6))] = some (2, 6)) ∧
      ((2 : Nat) ≠ 1) ∧
      (dGet 1 0 ([] : DMap) = none ∧ dGet 1 0 [(0, (2, 6))] = none ∧
        (∀ m₀ : DMap, dGet 1 0 (dInsert 0 1 5 m₀) = some 5) ∧
        dRemove 0 ([] : DMap) = []) :=
  ⟨by decide, by decide, by decide,
    c10_inner_map_contract 1 2 0 5 6 [] [(0, (2, 6))] (by decide) (by decide)
      (by decide)⟩

end Asteroids
